import Mathlib

/-!
Shallow embedding of `script/get_del_Q.py` (CarrierCapture.jl): the script
computes the (optionally mass-weighted) Cartesian displacement "delta Q"
between an initial and a final crystal structure, and optionally projects a
medium structure onto the per-atom initial-to-final displacement to report a
fractional reaction-coordinate position.

Floats are modelled by real numbers; the Python float `%` with a positive
modulus is `Int.fract`; a division whose denominator is zero takes the
undefined branch, modelled with `Option`.
-/

open scoped BigOperators

/-- A 3-component row of fractional or Cartesian coordinates. -/
abbrev Vec3 := Fin 3 → ℝ

/-- A chemical species, reduced to the one attribute the script reads. -/
structure Species where
  atomic_mass : ℝ

/-- The part of a structure file the script uses: per-atom fractional
coordinates, the 3x3 lattice matrix (rows are real-space basis vectors)
and the per-atom species list. -/
structure Struct where
  frac_coords : List Vec3
  lattice : Matrix (Fin 3) (Fin 3) ℝ
  species : List Species

/-- `np.array([spc.atomic_mass for spc in struct_i.species])` (line 39). -/
def masses (struct_i : Struct) : List ℝ :=
  struct_i.species.map Species.atomic_mass

/-- One component of the minimum-image wrap `(x + 0.5) % 1 - 0.5`
(lines 35 and 53). -/
noncomputable def wrapComp (x : ℝ) : ℝ := Int.fract (x + 1/2) - 1/2

/-- Componentwise wrap of one fractional row. -/
noncomputable def wrapVec (v : Vec3) : Vec3 := fun j => wrapComp (v j)

/-- Row-by-matrix product `np.dot(v, lattice)` (lines 37 and 54). -/
noncomputable def toCart (lattice : Matrix (Fin 3) (Fin 3) ℝ) (v : Vec3) : Vec3 :=
  fun j => ∑ k, v k * lattice k j

/-- Componentwise difference of two coordinate arrays (`b - a` in numpy). -/
noncomputable def arrSub (b a : List Vec3) : List Vec3 :=
  List.zipWith (fun x y => fun j => x j - y j) b a

/-- Lines 33-37 (and, with the medium structure, lines 52-54): the raw
fractional difference `other - struct_i`, wrapped to the minimum image,
then converted to Cartesian with the lattice of `struct_i`. -/
noncomputable def delta_R (struct_i other : Struct) : List Vec3 :=
  (arrSub other.frac_coords struct_i.frac_coords).map
    (fun v => toCart struct_i.lattice (wrapVec v))

/-- The squared rows `delta_Q2`: `delta_R ** 2`, or
`masses[:, None] * delta_R ** 2` with mass weighting (lines 42-45). -/
noncomputable def delta_Q2 (struct_i struct_f : Struct) (no_weight : Bool) : List Vec3 :=
  if no_weight then (delta_R struct_i struct_f).map (fun v => fun j => v j ^ 2)
  else
    List.zipWith (fun m v => fun j => m * v j ^ 2) (masses struct_i)
      (delta_R struct_i struct_f)

/-- `ndarray.sum()`: the sum of every entry of an n-by-3 array. -/
noncomputable def arrSum (rows : List Vec3) : ℝ :=
  (rows.map (fun v => ∑ j, v j)).sum

/-- `delta_Q = np.sqrt(delta_Q2.sum())` (line 46). -/
noncomputable def delta_Q (struct_i struct_f : Struct) (no_weight : Bool) : ℝ :=
  Real.sqrt (arrSum (delta_Q2 struct_i struct_f no_weight))

/-- Squared Euclidean length of one row. -/
noncomputable def normSq (v : Vec3) : ℝ := ∑ j, v j ^ 2

/-- `np.linalg.norm(_, axis=1)` applied to one row (line 58). -/
noncomputable def norm3 (v : Vec3) : ℝ := Real.sqrt (normSq v)

/-- Row-wise dot product of two rows. -/
noncomputable def dot3 (x y : Vec3) : ℝ := ∑ j, x j * y j

/-- `dots = np.einsum("ij,ij->i", delta_R, delta_M)` (line 57). -/
noncomputable def dots (a b : List Vec3) : List ℝ := List.zipWith dot3 a b

/-- Real division with its undefined branch explicit: dividing by zero
has no defined value. -/
noncomputable def divE (a b : ℝ) : Option ℝ := if b = 0 then none else some (a / b)

/-- `delta_M_proj = dots / norm`, elementwise (line 59). -/
noncomputable def delta_M_proj (struct_i struct_f struct_m : Struct) : List (Option ℝ) :=
  List.zipWith divE (dots (delta_R struct_i struct_f) (delta_R struct_i struct_m))
    ((delta_R struct_i struct_f).map norm3)

/-- `frac_delta_M_proj = delta_M_proj / norm`, elementwise (line 61). -/
noncomputable def frac_delta_M_proj (struct_i struct_f struct_m : Struct) :
    List (Option ℝ) :=
  List.zipWith (fun p n => p.bind (fun x => divE x n))
    (delta_M_proj struct_i struct_f struct_m)
    ((delta_R struct_i struct_f).map norm3)

/-- Collect the per-atom values; an undefined entry poisons the array. -/
def seqOpt : List (Option ℝ) → Option (List ℝ)
  | [] => some []
  | o :: rest => o.bind (fun x => (seqOpt rest).map (fun xs => x :: xs))

/-- `np.average(xs)`: the arithmetic mean, undefined for an empty array. -/
noncomputable def average (xs : List ℝ) : Option ℝ := divE xs.sum xs.length

/-- `np.average(xs, weights = ws)`: the weighted mean `(Σ ws*xs) / Σ ws`,
undefined when the weights sum to zero. -/
noncomputable def waverage (xs ws : List ℝ) : Option ℝ :=
  divE (List.zipWith (fun w x => w * x) ws xs).sum ws.sum

/-- The averaged fractional displacement `res` (lines 63-66). -/
noncomputable def res (struct_i struct_f struct_m : Struct) (no_weight : Bool) :
    Option ℝ :=
  (seqOpt (frac_delta_M_proj struct_i struct_f struct_m)).bind (fun xs =>
    if no_weight then average xs else waverage xs ((masses struct_i).map Real.sqrt))

/-- The parsed command-line arguments (lines 72-95). -/
structure Args where
  init : String
  fin : String
  med : String
  no_weight : Bool

/-- The labelled numbers `main` prints, in order; reading a structure file
from a path is abstracted by `fs`. -/
noncomputable def mainOutput (fs : String → Struct) (args : Args) :
    List (String × Option ℝ) :=
  let struct_i := fs args.init
  let struct_f := fs args.fin
  let dQ := delta_Q struct_i struct_f args.no_weight
  if args.med ≠ "unassigned" then
    let r := res struct_i struct_f (fs args.med) args.no_weight
    [("Delta Q:", some dQ),
     ("Projected delta Q:", r.map (fun x => dQ * x)),
     ("Fractional displacement:", r)]
  else [("Delta Q:", some dQ)]

/-! ## Concrete inputs used to instantiate the theorems -/

/-- The identity lattice (cubic, lattice constant 1). -/
noncomputable def idLat : Matrix (Fin 3) (Fin 3) ℝ := Matrix.diagonal (fun _ => 1)

/-- A cubic lattice with lattice constant 2. -/
noncomputable def twoLat : Matrix (Fin 3) (Fin 3) ℝ := Matrix.diagonal (fun _ => 2)

/-- A row whose first component is `c` and whose other components vanish. -/
noncomputable def e1 (c : ℝ) : Vec3 := fun j => if j = 0 then c else 0

/-- One carbon-mass atom at the origin, cubic unit lattice. -/
noncomputable def stO : Struct := ⟨[e1 0], idLat, [⟨12⟩]⟩

/-- One atom at fractional position (1/4, 0, 0). -/
noncomputable def stQ4 : Struct := ⟨[e1 (1/4)], idLat, [⟨12⟩]⟩

/-- One atom at fractional position (1/8, 0, 0). -/
noncomputable def stQ8 : Struct := ⟨[e1 (1/8)], idLat, [⟨12⟩]⟩

/-- One atom at fractional position (4/5, 0, 0). -/
noncomputable def stF45 : Struct := ⟨[e1 (4/5)], idLat, [⟨12⟩]⟩

/-- One atom at fractional position (2/5, 0, 0). -/
noncomputable def stM25 : Struct := ⟨[e1 (2/5)], idLat, [⟨12⟩]⟩

/-- One atom at fractional position (1/4, 0, 0) in the larger lattice. -/
noncomputable def stB2 : Struct := ⟨[e1 (1/4)], twoLat, [⟨12⟩]⟩

/-! ## Properties of the wrap -/

theorem wrapComp_def (x : ℝ) : wrapComp x = x - ⌊x + 1/2⌋ := by
  simp only [wrapComp, Int.fract]
  ring

theorem wrapComp_lb (x : ℝ) : -(1/2) ≤ wrapComp x := by
  have h := Int.fract_nonneg (x + 1/2)
  simp only [wrapComp]
  linarith

theorem wrapComp_ub (x : ℝ) : wrapComp x < 1/2 := by
  have h := Int.fract_lt_one (x + 1/2)
  simp only [wrapComp]
  linarith

theorem wrapComp_is_image (x : ℝ) : ∃ n : ℤ, wrapComp x = x + n := by
  refine ⟨-⌊x + 1/2⌋, ?_⟩
  rw [wrapComp_def]
  push_cast
  ring

theorem wrapComp_min_image (x : ℝ) (n : ℤ) : |wrapComp x| ≤ |x + n| := by
  have hb : |wrapComp x| ≤ 1/2 :=
    abs_le.mpr ⟨by linarith [wrapComp_lb x], le_of_lt (wrapComp_ub x)⟩
  have hx : x + n = wrapComp x + ((⌊x + 1/2⌋ + n : ℤ) : ℝ) := by
    rw [wrapComp_def]
    push_cast
    ring
  by_cases hk : (⌊x + 1/2⌋ + n : ℤ) = 0
  · rw [hx, hk]
    simp
  · have h1 : (1 : ℝ) ≤ |((⌊x + 1/2⌋ + n : ℤ) : ℝ)| := by
      rw [← Int.cast_abs]
      exact_mod_cast Int.one_le_abs hk
    have h2 := abs_add (wrapComp x + ((⌊x + 1/2⌋ + n : ℤ) : ℝ)) (-(wrapComp x))
    have h3 : wrapComp x + ((⌊x + 1/2⌋ + n : ℤ) : ℝ) + -(wrapComp x)
        = ((⌊x + 1/2⌋ + n : ℤ) : ℝ) := by ring
    rw [h3, abs_neg] at h2
    rw [hx]
    linarith

theorem wrapComp_eq_self (x : ℝ) (h1 : -(1/2) ≤ x) (h2 : x < 1/2) :
    wrapComp x = x := by
  simp only [wrapComp]
  rw [Int.fract_eq_self.mpr ⟨by linarith, by linarith⟩]
  ring

theorem wrapComp_neg (x : ℝ) (h : Int.fract (x + 1/2) ≠ 0) :
    wrapComp (-x) = -wrapComp x := by
  simp only [wrapComp]
  have h1 : (-x + 1/2 : ℝ) = -(x + 1/2) + ((1 : ℤ) : ℝ) := by
    push_cast
    ring
  rw [h1, Int.fract_add_int, Int.fract_neg h]
  ring

theorem wrapComp_half : wrapComp (1/2) = -(1/2) := by
  simp only [wrapComp]
  have h1 : (1/2 + 1/2 : ℝ) = ((1 : ℤ) : ℝ) := by norm_num
  rw [h1, Int.fract_intCast]
  norm_num

theorem wrapVec_eq_self (v : Vec3) (h : ∀ j, -(1/2) ≤ v j ∧ v j < 1/2) :
    wrapVec v = v :=
  funext fun j => wrapComp_eq_self (v j) (h j).1 (h j).2

/-- The wrap leaves zero fixed. -/
theorem wrapComp_zero : wrapComp 0 = 0 :=
  wrapComp_eq_self 0 (by norm_num) (by norm_num)

/-- The wrap on the interval [1/2, 3/2) subtracts one. -/
theorem wrapComp_shift (x : ℝ) (h1 : 1/2 ≤ x) (h2 : x < 3/2) :
    wrapComp x = x - 1 := by
  rw [wrapComp_def]
  have hf : ⌊x + 1/2⌋ = 1 := by
    apply Int.floor_eq_iff.mpr
    constructor
    · push_cast
      linarith
    · push_cast
      linarith
  rw [hf]
  norm_num

/-! ## Helper lemmas on lists -/

theorem seqOpt_none {xs : List (Option ℝ)} (h : none ∈ xs) : seqOpt xs = none := by
  induction xs with
  | nil => cases h
  | cons o rest ih =>
    cases h with
    | head => rfl
    | tail _ hmem =>
      cases o with
      | none => rfl
      | some x => simp [seqOpt, ih hmem]

theorem zipWith_mem_of_zip {α β γ : Type*} (f : α → β → γ) :
    ∀ (A : List α) (B : List β) (a : α) (b : β),
      (a, b) ∈ A.zip B → f a b ∈ List.zipWith f A B := by
  intro A
  induction A with
  | nil =>
    intro B a b h
    simp at h
  | cons x A ih =>
    intro B a b h
    cases B with
    | nil => simp at h
    | cons y B =>
      rw [List.zip_cons_cons] at h
      rw [List.zipWith_cons_cons]
      rcases List.mem_cons.mp h with h | h
      · simp only [Prod.mk.injEq] at h
        rw [h.1, h.2]
        exact List.mem_cons_self _ _
      · exact List.mem_cons_of_mem _ (ih B a b h)

theorem mem_of_zipWith {α β γ : Type*} (f : α → β → γ) :
    ∀ (A : List α) (B : List β) (c : γ), c ∈ List.zipWith f A B →
      ∃ a, a ∈ A ∧ ∃ b, b ∈ B ∧ c = f a b := by
  intro A
  induction A with
  | nil =>
    intro B c h
    simp at h
  | cons x A ih =>
    intro B c h
    cases B with
    | nil => simp at h
    | cons y B =>
      rw [List.zipWith_cons_cons] at h
      rcases List.mem_cons.mp h with h | h
      · exact ⟨x, List.mem_cons_self _ _, y, List.mem_cons_self _ _, h⟩
      · rcases ih B c h with ⟨a, ha, b, hb, hc⟩
        exact ⟨a, List.mem_cons_of_mem _ ha, b, List.mem_cons_of_mem _ hb, hc⟩

theorem zipWith_sub_self (A : List Vec3) :
    List.zipWith (fun x y => fun j => x j - y j) A A =
      A.map (fun _ => fun _ => (0 : ℝ)) := by
  induction A with
  | nil => rfl
  | cons a A ih =>
    rw [List.zipWith_cons_cons, List.map_cons, ih]
    congr 1
    funext j
    exact sub_self _

theorem arrSub_self (A : List Vec3) :
    arrSub A A = A.map (fun _ => fun _ => (0 : ℝ)) :=
  zipWith_sub_self A

theorem zipWith_sub_antisymm (A B : List Vec3) :
    List.zipWith (fun x y => fun j => x j - y j) A B =
      (List.zipWith (fun x y => fun j => x j - y j) B A).map
        (fun v => fun j => -(v j)) := by
  induction A generalizing B with
  | nil => cases B <;> rfl
  | cons a A ih =>
    cases B with
    | nil => rfl
    | cons b B =>
      rw [List.zipWith_cons_cons, List.zipWith_cons_cons, List.map_cons, ih B]
      congr 1
      funext j
      ring

theorem arrSub_antisymm (A B : List Vec3) :
    arrSub A B = (arrSub B A).map (fun v => fun j => -(v j)) :=
  zipWith_sub_antisymm A B

/-! ## Helper lemmas on the Cartesian conversion -/

theorem toCart_neg (L : Matrix (Fin 3) (Fin 3) ℝ) (v : Vec3) :
    toCart L (fun j => -(v j)) = fun j => -(toCart L v j) := by
  funext j
  simp only [toCart, neg_mul]
  exact Finset.sum_neg_distrib

theorem toCart_div_two (L : Matrix (Fin 3) (Fin 3) ℝ) (v : Vec3) :
    toCart L (fun j => v j / 2) = fun j => toCart L v j / 2 := by
  funext j
  simp only [toCart]
  rw [Finset.sum_div]
  exact Finset.sum_congr rfl fun k _ => by ring

theorem toCart_zero (L : Matrix (Fin 3) (Fin 3) ℝ) :
    toCart L (fun _ => 0) = fun _ => 0 := by
  funext j
  simp [toCart]

theorem toCart_diagonal (c : ℝ) (v : Vec3) :
    toCart (Matrix.diagonal (fun _ => c)) v = fun j => v j * c := by
  funext j
  simp only [toCart, Matrix.diagonal_apply]
  rw [Finset.sum_eq_single j]
  · simp
  · intro k _ hk
    simp [hk]
  · intro h
    exact absurd (Finset.mem_univ j) h

theorem toCart_idLat (v : Vec3) : toCart idLat v = v := by
  rw [idLat, toCart_diagonal]
  funext j
  exact mul_one _

/-! ## Evaluation on the concrete single-atom inputs -/

theorem e1_sub (a b : ℝ) : (fun j => e1 b j - e1 a j) = e1 (b - a) := by
  funext j
  simp only [e1]
  by_cases hj : j = 0 <;> simp [hj]

theorem wrapVec_e1 (c : ℝ) : wrapVec (e1 c) = e1 (wrapComp c) := by
  funext j
  simp only [wrapVec, e1]
  by_cases hj : j = 0 <;> simp [hj, wrapComp_zero]

theorem normSq_e1 (c : ℝ) : normSq (e1 c) = c ^ 2 := by
  simp [normSq, Fin.sum_univ_three, e1, show (1 : Fin 3) ≠ 0 by decide,
    show (2 : Fin 3) ≠ 0 by decide]

theorem norm3_e1 (c : ℝ) : norm3 (e1 c) = |c| := by
  rw [norm3, normSq_e1]
  exact Real.sqrt_sq_eq_abs c

theorem dot3_e1 (a b : ℝ) : dot3 (e1 a) (e1 b) = a * b := by
  simp [dot3, Fin.sum_univ_three, e1, show (1 : Fin 3) ≠ 0 by decide,
    show (2 : Fin 3) ≠ 0 by decide]

theorem toCart_twoLat_e1 (c : ℝ) : toCart twoLat (e1 c) = e1 (c * 2) := by
  rw [twoLat, toCart_diagonal]
  funext j
  simp only [e1]
  by_cases hj : j = 0 <;> simp [hj]

theorem delta_R_e1 (a b : ℝ) (L L' : Matrix (Fin 3) (Fin 3) ℝ)
    (sp sp' : List Species) :
    delta_R ⟨[e1 a], L, sp⟩ ⟨[e1 b], L', sp'⟩
      = [toCart L (e1 (wrapComp (b - a)))] := by
  show [toCart L (wrapVec (fun j => e1 b j - e1 a j))] = _
  rw [e1_sub, wrapVec_e1]

theorem delta_R_stO_stO : delta_R stO stO = [e1 0] := by
  have h := delta_R_e1 0 0 idLat idLat [⟨12⟩] [⟨12⟩]
  rw [show (0 - 0 : ℝ) = 0 by norm_num, wrapComp_zero, toCart_idLat] at h
  exact h

theorem delta_R_stO_stQ4 : delta_R stO stQ4 = [e1 (1/4)] := by
  have h := delta_R_e1 0 (1/4) idLat idLat [⟨12⟩] [⟨12⟩]
  rw [show (1/4 - 0 : ℝ) = 1/4 by norm_num,
    wrapComp_eq_self (1/4) (by norm_num) (by norm_num), toCart_idLat] at h
  exact h

theorem delta_R_stO_stQ8 : delta_R stO stQ8 = [e1 (1/8)] := by
  have h := delta_R_e1 0 (1/8) idLat idLat [⟨12⟩] [⟨12⟩]
  rw [show (1/8 - 0 : ℝ) = 1/8 by norm_num,
    wrapComp_eq_self (1/8) (by norm_num) (by norm_num), toCart_idLat] at h
  exact h

theorem delta_R_stO_stF45 : delta_R stO stF45 = [e1 (-(1/5))] := by
  have h := delta_R_e1 0 (4/5) idLat idLat [⟨12⟩] [⟨12⟩]
  rw [show (4/5 - 0 : ℝ) = 4/5 by norm_num,
    wrapComp_shift (4/5) (by norm_num) (by norm_num),
    show (4/5 - 1 : ℝ) = -(1/5) by norm_num, toCart_idLat] at h
  exact h

theorem delta_R_stO_stM25 : delta_R stO stM25 = [e1 (2/5)] := by
  have h := delta_R_e1 0 (2/5) idLat idLat [⟨12⟩] [⟨12⟩]
  rw [show (2/5 - 0 : ℝ) = 2/5 by norm_num,
    wrapComp_eq_self (2/5) (by norm_num) (by norm_num), toCart_idLat] at h
  exact h

theorem delta_R_stO_stB2 : delta_R stO stB2 = [e1 (1/4)] := by
  have h := delta_R_e1 0 (1/4) idLat twoLat [⟨12⟩] [⟨12⟩]
  rw [show (1/4 - 0 : ℝ) = 1/4 by norm_num,
    wrapComp_eq_self (1/4) (by norm_num) (by norm_num), toCart_idLat] at h
  exact h

theorem delta_R_stB2_stO : delta_R stB2 stO = [e1 (-(1/2))] := by
  have h := delta_R_e1 (1/4) 0 twoLat idLat [⟨12⟩] [⟨12⟩]
  rw [show (0 - 1/4 : ℝ) = -(1/4) by norm_num,
    wrapComp_eq_self (-(1/4)) (by norm_num) (by norm_num),
    toCart_twoLat_e1, show (-(1/4) * 2 : ℝ) = -(1/2) by norm_num] at h
  exact h

theorem arrSum_single (v : Vec3) : arrSum [v] = ∑ j, v j := by
  simp [arrSum]

theorem delta_Q_single (struct_i struct_f : Struct) (c m : ℝ)
    (h : delta_R struct_i struct_f = [e1 c]) (hm : masses struct_i = [m]) :
    delta_Q struct_i struct_f true = |c| ∧
      delta_Q struct_i struct_f false = Real.sqrt (m * c ^ 2) := by
  constructor
  · unfold delta_Q delta_Q2
    rw [if_pos rfl, h]
    show Real.sqrt (arrSum [fun j => e1 c j ^ 2]) = _
    rw [arrSum_single]
    have h2 : (∑ j, e1 c j ^ 2 : ℝ) = c ^ 2 := normSq_e1 c
    rw [h2, Real.sqrt_sq_eq_abs]
  · unfold delta_Q delta_Q2
    rw [if_neg (by simp), h, hm]
    show Real.sqrt (arrSum [fun j => m * e1 c j ^ 2]) = _
    rw [arrSum_single]
    have h2 : (∑ j, e1 c j ^ 2 : ℝ) = c ^ 2 := normSq_e1 c
    rw [← Finset.mul_sum, h2]

/-! ## Claim theorems -/

/-- Claim C1: for every pair of structures the printed scalar `delta_Q`
equals `sqrt(sum over atoms of mass_i * |dr_i|^2)` with mass weighting (the
default), and `sqrt(sum over atoms of |dr_i|^2)` with `--no_weight`; in
both cases the result is non-negative, and it is the value printed on the
first output line. -/
theorem delta_Q_matches_spec_formulas (struct_i struct_f : Struct) :
    delta_Q struct_i struct_f false =
      Real.sqrt ((List.zipWith (fun m v => m * normSq v) (masses struct_i)
        (delta_R struct_i struct_f)).sum) ∧
    delta_Q struct_i struct_f true =
      Real.sqrt (((delta_R struct_i struct_f).map normSq).sum) ∧
    (∀ no_weight, 0 ≤ delta_Q struct_i struct_f no_weight) ∧
    ∀ (fs : String → Struct) (args : Args),
      (mainOutput fs args).head? =
        some ("Delta Q:", some (delta_Q (fs args.init) (fs args.fin) args.no_weight)) := by
  refine ⟨?_, ?_, fun _ => Real.sqrt_nonneg _, ?_⟩
  · unfold delta_Q delta_Q2 arrSum
    rw [if_neg (by simp)]
    simp only [List.map_zipWith]
    have hfg : (fun (m : ℝ) (v : Vec3) => ∑ j, m * v j ^ 2)
        = fun (m : ℝ) (v : Vec3) => m * normSq v := by
      funext m v
      exact (Finset.mul_sum Finset.univ (fun j => v j ^ 2) m).symm
    rw [hfg]
  · unfold delta_Q delta_Q2 arrSum
    rw [if_pos rfl, List.map_map]
    rfl
  · intro fs args
    by_cases hmed : args.med = "unassigned" <;> simp [mainOutput, hmed]

/-- Claim C3, counterexample: at raw difference 0.5 the wrap produces
-0.5, which is outside the claimed range (-0.5, 0.5]. -/
theorem wrap_range_claim_cex :
    wrapComp (1/2) = -(1/2) ∧ ¬ (-(1/2) < wrapComp (1/2) ∧ wrapComp (1/2) ≤ 1/2) := by
  refine ⟨wrapComp_half, ?_⟩
  rw [wrapComp_half]
  intro hc
  exact lt_irrefl _ hc.1

/-- Claim C3, amended: the wrap lands in [-0.5, 0.5): the lower endpoint is
attained (see the counterexample at raw = 0.5) and the upper one is not; the
wrapped value is a periodic image `raw + n` of the raw difference and has
minimum magnitude among all periodic images. -/
theorem wrap_range_and_min_image (x : ℝ) :
    (-(1/2) ≤ wrapComp x ∧ wrapComp x < 1/2) ∧
      (∃ n : ℤ, wrapComp x = x + n) ∧ ∀ n : ℤ, |wrapComp x| ≤ |x + n| :=
  ⟨⟨wrapComp_lb x, wrapComp_ub x⟩, wrapComp_is_image x, wrapComp_min_image x⟩

/-- Claim C7: identical initial and final fractional coordinates give a zero
displacement field and `delta_Q = 0` exactly, with or without weighting. -/
theorem delta_Q_zero_for_identical (struct_i struct_f : Struct)
    (h : struct_f.frac_coords = struct_i.frac_coords) (no_weight : Bool) :
    delta_Q struct_i struct_f no_weight = 0 := by
  have hz : ∀ v ∈ delta_R struct_i struct_f, ∀ j, v j = 0 := by
    intro v hv
    unfold delta_R at hv
    rw [h, arrSub_self, List.map_map] at hv
    rcases List.mem_map.mp hv with ⟨u, _, rfl⟩
    intro j
    show toCart struct_i.lattice (wrapVec (fun _ => 0)) j = 0
    have hw : wrapVec (fun _ => (0 : ℝ)) = fun _ => 0 :=
      funext fun _ => wrapComp_zero
    rw [hw, toCart_zero]
  have h0 : arrSum (delta_Q2 struct_i struct_f no_weight) = 0 := by
    unfold arrSum
    apply List.sum_eq_zero
    intro x hx
    rcases List.mem_map.mp hx with ⟨v, hv, rfl⟩
    unfold delta_Q2 at hv
    cases no_weight with
    | true =>
      rw [if_pos rfl] at hv
      rcases List.mem_map.mp hv with ⟨u, hu, rfl⟩
      exact Finset.sum_eq_zero fun j _ => by rw [hz u hu j]; ring
    | false =>
      rw [if_neg (by simp)] at hv
      rcases mem_of_zipWith _ _ _ _ hv with ⟨m, _, u, hu, rfl⟩
      exact Finset.sum_eq_zero fun j _ => by rw [hz u hu j]; ring
  unfold delta_Q
  rw [h0, Real.sqrt_zero]

/-- Claim C7 witness at a concrete structure. -/
theorem delta_Q_zero_for_identical_witness :
    delta_Q stO stO true = 0 ∧ delta_Q stO stO false = 0 :=
  ⟨delta_Q_zero_for_identical stO stO rfl true,
   delta_Q_zero_for_identical stO stO rfl false⟩

/-- Claim C8: the medium projection lines appear exactly when `--med`
differs from the sentinel "unassigned"; with a medium the output is the
three labelled lines in order, otherwise the single `Delta Q:` line. -/
theorem printed_lines_iff_medium (fs : String → Struct) (args : Args) :
    (args.med ≠ "unassigned" →
      mainOutput fs args =
        [("Delta Q:", some (delta_Q (fs args.init) (fs args.fin) args.no_weight)),
         ("Projected delta Q:",
           (res (fs args.init) (fs args.fin) (fs args.med) args.no_weight).map
             (fun x => delta_Q (fs args.init) (fs args.fin) args.no_weight * x)),
         ("Fractional displacement:",
           res (fs args.init) (fs args.fin) (fs args.med) args.no_weight)]) ∧
    (args.med = "unassigned" →
      mainOutput fs args =
        [("Delta Q:", some (delta_Q (fs args.init) (fs args.fin) args.no_weight))]) := by
  constructor <;> intro h <;> simp [mainOutput, h]

/-- Claim C9: the minimum-image wrap is the identity on values already in
[-0.5, 0.5). -/
theorem wrap_idempotent_on_canonical (x : ℝ) (h1 : -(1/2) ≤ x) (h2 : x < 1/2) :
    wrapComp x = x :=
  wrapComp_eq_self x h1 h2

/-- Claim C9 witness at the concrete value -0.5 (and so the wrap of a
wrapped value is that value again). -/
theorem wrap_idempotent_on_canonical_witness :
    (-(1/2) : ℝ) ≤ -(1/2) ∧ (-(1/2) : ℝ) < 1/2 ∧ wrapComp (-(1/2)) = -(1/2) :=
  ⟨le_refl _, by norm_num,
    wrap_idempotent_on_canonical (-(1/2)) (le_refl _) (by norm_num)⟩

/-- Claim C10: every fractional-to-Cartesian conversion uses the initial
structure's lattice; replacing the final or medium structure's lattice by
anything else changes neither the displacement field, nor `delta_Q`, nor
the projection result. -/
theorem only_initial_lattice_read (struct_i struct_f struct_m : Struct)
    (Lf Lm : Matrix (Fin 3) (Fin 3) ℝ) (no_weight : Bool) :
    delta_R struct_i { struct_f with lattice := Lf } = delta_R struct_i struct_f ∧
    delta_Q struct_i { struct_f with lattice := Lf } no_weight
        = delta_Q struct_i struct_f no_weight ∧
    res struct_i { struct_f with lattice := Lf } { struct_m with lattice := Lm }
        no_weight = res struct_i struct_f struct_m no_weight :=
  ⟨rfl, rfl, rfl⟩

/-! ## The projection pipeline -/

theorem normSq_nonneg (v : Vec3) : 0 ≤ normSq v :=
  Finset.sum_nonneg fun _ _ => sq_nonneg _

theorem norm3_mul_self (v : Vec3) : norm3 v * norm3 v = normSq v :=
  Real.mul_self_sqrt (normSq_nonneg v)

theorem fract_helper (c : ℝ) (h1 : 0 < c) (h2 : c < 1) : Int.fract c ≠ 0 := by
  rw [Int.fract_eq_self.mpr ⟨le_of_lt h1, h2⟩]
  exact ne_of_gt h1

theorem frac_eq_zipWith (struct_i struct_f struct_m : Struct) :
    frac_delta_M_proj struct_i struct_f struct_m =
      List.zipWith (fun dR dM => (divE (dot3 dR dM) (norm3 dR)).bind
        (fun p => divE p (norm3 dR)))
        (delta_R struct_i struct_f) (delta_R struct_i struct_m) := by
  unfold frac_delta_M_proj delta_M_proj dots
  generalize delta_R struct_i struct_f = A
  generalize delta_R struct_i struct_m = B
  induction A generalizing B with
  | nil => rfl
  | cons a A ih =>
    cases B with
    | nil => rfl
    | cons b B =>
      simp only [List.zipWith_cons_cons, List.map_cons]
      rw [ih B]

theorem seqOpt_fracs (A B : List Vec3) (h : ∀ v ∈ A, norm3 v ≠ 0) :
    seqOpt (List.zipWith (fun dR dM => (divE (dot3 dR dM) (norm3 dR)).bind
        (fun p => divE p (norm3 dR))) A B) =
      some (List.zipWith (fun dR dM => dot3 dR dM / norm3 dR / norm3 dR) A B) := by
  induction A generalizing B with
  | nil => rfl
  | cons a A ih =>
    cases B with
    | nil => rfl
    | cons b B =>
      have ha : norm3 a ≠ 0 := h a (List.mem_cons_self a A)
      have htail := ih B (fun v hv => h v (List.mem_cons_of_mem a hv))
      have hhead : (divE (dot3 a b) (norm3 a)).bind (fun p => divE p (norm3 a))
          = some (dot3 a b / norm3 a / norm3 a) := by
        simp only [divE, if_neg ha, Option.some_bind]
      simp only [List.zipWith_cons_cons, seqOpt]
      rw [hhead, htail, Option.some_bind]
      rfl

theorem seqOpt_replicate (n : ℕ) (c : ℝ) :
    seqOpt (List.replicate n (some c)) = some (List.replicate n c) := by
  induction n with
  | zero => rfl
  | succ n ih =>
    rw [List.replicate_succ, List.replicate_succ]
    simp [seqOpt, ih]

theorem average_replicate (n : ℕ) (c : ℝ) (hn : n ≠ 0) :
    average (List.replicate n c) = some c := by
  unfold average divE
  rw [List.sum_replicate, List.length_replicate]
  have hc : ((n : ℝ)) ≠ 0 := Nat.cast_ne_zero.mpr hn
  rw [if_neg hc]
  congr 1
  rw [nsmul_eq_mul, mul_comm, mul_div_assoc, div_self hc, mul_one]

theorem zipWith_mul_replicate (ws : List ℝ) (n : ℕ) (c : ℝ) (h : ws.length ≤ n) :
    List.zipWith (fun w x => w * x) ws (List.replicate n c)
      = ws.map (fun w => w * c) := by
  induction ws generalizing n with
  | nil => rfl
  | cons w ws ih =>
    cases n with
    | zero => simp at h
    | succ n =>
      rw [List.replicate_succ, List.zipWith_cons_cons, List.map_cons,
        ih n (by simpa using h)]

theorem sum_map_mul_const (ws : List ℝ) (c : ℝ) :
    (ws.map (fun w => w * c)).sum = ws.sum * c := by
  induction ws with
  | nil => simp
  | cons w ws ih =>
    rw [List.map_cons, List.sum_cons, List.sum_cons, ih]
    ring

theorem waverage_replicate (ws : List ℝ) (n : ℕ) (c : ℝ) (hlen : ws.length = n)
    (hs : ws.sum ≠ 0) :
    waverage (List.replicate n c) ws = some c := by
  unfold waverage
  rw [zipWith_mul_replicate ws n c (le_of_eq hlen), sum_map_mul_const]
  unfold divE
  rw [if_neg hs]
  congr 1
  rw [mul_comm, mul_div_assoc, div_self hs, mul_one]

theorem sqrt_masses_sum_pos (ms : List ℝ) (h : ∀ m ∈ ms, 0 < m) (hne : ms ≠ []) :
    0 < (ms.map Real.sqrt).sum := by
  apply List.sum_pos
  · intro x hx
    rcases List.mem_map.mp hx with ⟨m, hm, rfl⟩
    exact Real.sqrt_pos.mpr (h m hm)
  · intro hmap
    exact hne (List.map_eq_nil_iff.mp hmap)

/-! ## Swapping initial and final -/

theorem delta_Q2_neg_invariant (M : List ℝ) (R : List Vec3) :
    List.zipWith (fun m v => fun j => m * v j ^ 2) M
        (R.map (fun v => fun j => -(v j)))
      = List.zipWith (fun m v => fun j => m * v j ^ 2) M R := by
  induction M generalizing R with
  | nil => rfl
  | cons m M ih =>
    cases R with
    | nil => rfl
    | cons v R =>
      rw [List.map_cons, List.zipWith_cons_cons, List.zipWith_cons_cons, ih R]
      congr 1
      funext j
      ring

theorem sq_rows_neg_invariant (R : List Vec3) :
    (R.map (fun v => fun j => -(v j))).map (fun v => fun j => v j ^ 2)
      = R.map (fun v => fun j => v j ^ 2) := by
  rw [List.map_map]
  apply List.map_congr_left
  intro v _
  funext j
  show (-(v j)) ^ 2 = v j ^ 2
  ring

/-! ## The medium at the midpoint -/

theorem zipWith_sub_midpoint (A B : List Vec3) :
    List.zipWith (fun x y => fun j => x j - y j)
        (List.zipWith (fun a b => fun j => (a j + b j) / 2) A B) A
      = (List.zipWith (fun x y => fun j => x j - y j) B A).map
          (fun v => fun j => v j / 2) := by
  induction A generalizing B with
  | nil => simp
  | cons a A ih =>
    cases B with
    | nil => rfl
    | cons b B =>
      rw [List.zipWith_cons_cons, List.zipWith_cons_cons, List.zipWith_cons_cons,
        List.map_cons, ih B]
      congr 1
      funext j
      ring

theorem delta_M_is_half (struct_i struct_f struct_m : Struct)
    (hmid : struct_m.frac_coords = List.zipWith (fun a b => fun j => (a j + b j) / 2)
      struct_i.frac_coords struct_f.frac_coords)
    (hrange : ∀ v ∈ arrSub struct_f.frac_coords struct_i.frac_coords,
      ∀ j, -(1/2) ≤ v j ∧ v j < 1/2) :
    delta_R struct_i struct_m = (delta_R struct_i struct_f).map
      (fun v => fun j => v j / 2) := by
  unfold delta_R
  rw [hmid]
  rw [show arrSub (List.zipWith (fun a b => fun j => (a j + b j) / 2)
        struct_i.frac_coords struct_f.frac_coords) struct_i.frac_coords
      = (arrSub struct_f.frac_coords struct_i.frac_coords).map
          (fun v => fun j => v j / 2) from zipWith_sub_midpoint _ _]
  rw [List.map_map, List.map_map]
  apply List.map_congr_left
  intro v hv
  show toCart struct_i.lattice (wrapVec (fun j => v j / 2))
    = fun j => toCart struct_i.lattice (wrapVec v) j / 2
  have h1 : wrapVec v = v := wrapVec_eq_self v (hrange v hv)
  have h2 : wrapVec (fun j => v j / 2) = fun j => v j / 2 := by
    apply wrapVec_eq_self
    intro j
    rcases hrange v hv j with ⟨ha, hb⟩
    constructor
    · linarith
    · linarith
  rw [h1, h2, toCart_div_two]

theorem fracs_half (A : List Vec3) (h : ∀ v ∈ A, norm3 v ≠ 0) :
    List.zipWith (fun dR dM => (divE (dot3 dR dM) (norm3 dR)).bind
        (fun p => divE p (norm3 dR))) A (A.map (fun v => fun j => v j / 2))
      = List.replicate A.length (some (1/2 : ℝ)) := by
  induction A with
  | nil => rfl
  | cons a A ih =>
    rw [List.map_cons, List.zipWith_cons_cons, List.length_cons,
      List.replicate_succ, ih (fun v hv => h v (List.mem_cons_of_mem a hv))]
    congr 1
    have ha : norm3 a ≠ 0 := h a (List.mem_cons_self a A)
    have hnsq : normSq a ≠ 0 := by
      intro h0
      apply ha
      rw [norm3, h0, Real.sqrt_zero]
    have hdot : dot3 a (fun j => a j / 2) = normSq a / 2 := by
      unfold dot3 normSq
      rw [Finset.sum_div]
      exact Finset.sum_congr rfl fun j _ => by ring
    rw [hdot]
    unfold divE
    rw [if_neg ha, Option.some_bind, if_neg ha]
    congr 1
    rw [div_div, norm3_mul_self, div_div,
      show (2 * normSq a : ℝ) = normSq a * 2 from by ring,
      div_mul_eq_div_div, div_self hnsq]

/-- Claim C2: with a medium structure, each atom's fractional value is the
row dot product divided by the per-atom norm and divided by that same norm
again; `res` is the arithmetic mean of these values under `--no_weight` and
the sqrt-mass weighted mean otherwise; the printed projected delta Q is
`delta_Q * res` and the fractional displacement line prints `res`. Stated
under nonzero per-atom path norms, where the divisions are defined. -/
theorem projection_pipeline_formulas (struct_i struct_f struct_m : Struct)
    (no_weight : Bool)
    (hn : ∀ v ∈ delta_R struct_i struct_f, norm3 v ≠ 0) :
    seqOpt (frac_delta_M_proj struct_i struct_f struct_m) =
      some (List.zipWith (fun dR dM => dot3 dR dM / norm3 dR / norm3 dR)
        (delta_R struct_i struct_f) (delta_R struct_i struct_m)) ∧
    res struct_i struct_f struct_m no_weight =
      (if no_weight
        then average (List.zipWith (fun dR dM => dot3 dR dM / norm3 dR / norm3 dR)
          (delta_R struct_i struct_f) (delta_R struct_i struct_m))
        else waverage (List.zipWith (fun dR dM => dot3 dR dM / norm3 dR / norm3 dR)
          (delta_R struct_i struct_f) (delta_R struct_i struct_m))
          ((masses struct_i).map Real.sqrt)) ∧
    ∀ (fs : String → Struct) (args : Args), fs args.init = struct_i →
      fs args.fin = struct_f → fs args.med = struct_m →
      args.no_weight = no_weight → args.med ≠ "unassigned" →
      mainOutput fs args =
        [("Delta Q:", some (delta_Q struct_i struct_f no_weight)),
         ("Projected delta Q:", (res struct_i struct_f struct_m no_weight).map
            (fun x => delta_Q struct_i struct_f no_weight * x)),
         ("Fractional displacement:", res struct_i struct_f struct_m no_weight)] := by
  have hseq : seqOpt (frac_delta_M_proj struct_i struct_f struct_m) =
      some (List.zipWith (fun dR dM => dot3 dR dM / norm3 dR / norm3 dR)
        (delta_R struct_i struct_f) (delta_R struct_i struct_m)) := by
    rw [frac_eq_zipWith]
    exact seqOpt_fracs _ _ hn
  refine ⟨hseq, ?_, ?_⟩
  · unfold res
    rw [hseq, Option.some_bind]
  · intro fs args h1 h2 h3 h4 hmed
    subst h1
    subst h2
    subst h3
    subst h4
    simp [mainOutput, hmed]

/-- Claim C2 witness at concrete single-atom structures. -/
theorem projection_pipeline_formulas_witness :
    res stO stQ4 stQ8 true =
      average (List.zipWith (fun dR dM => dot3 dR dM / norm3 dR / norm3 dR)
        (delta_R stO stQ4) (delta_R stO stQ8)) := by
  have hn : ∀ v ∈ delta_R stO stQ4, norm3 v ≠ 0 := by
    rw [delta_R_stO_stQ4]
    intro v hv
    rw [List.mem_singleton] at hv
    rw [hv, norm3_e1]
    norm_num
  have h := (projection_pipeline_formulas stO stQ4 stQ8 true hn).2.1
  rw [if_pos rfl] at h
  exact h

/-- Claim C4: an atom whose path vector has zero norm makes the per-atom
division a division by zero: nothing guards it, the undefined branch of
the embedded division is reached, and it poisons the printed average,
which is undefined. -/
theorem zero_path_norm_division_unguarded (struct_i struct_f struct_m : Struct)
    (no_weight : Bool) (a b : Vec3)
    (hmem : (a, b) ∈ (delta_R struct_i struct_f).zip (delta_R struct_i struct_m))
    (hz : norm3 a = 0) :
    res struct_i struct_f struct_m no_weight = none := by
  have h1 : none ∈ frac_delta_M_proj struct_i struct_f struct_m := by
    rw [frac_eq_zipWith]
    have h2 := zipWith_mem_of_zip (fun dR dM => (divE (dot3 dR dM) (norm3 dR)).bind
      (fun p => divE p (norm3 dR))) _ _ a b hmem
    simpa [divE, hz] using h2
  unfold res
  rw [seqOpt_none h1]
  rfl

/-- Claim C4 witness: identical initial and final structures give a zero
path vector, and the projection result is undefined. -/
theorem zero_path_norm_division_unguarded_witness :
    res stO stO stQ4 true = none := by
  have hmem : (e1 0, e1 (1/4)) ∈ (delta_R stO stO).zip (delta_R stO stQ4) := by
    rw [delta_R_stO_stO, delta_R_stO_stQ4]
    exact List.mem_singleton.mpr rfl
  have hz : norm3 (e1 0) = 0 := by
    rw [norm3_e1]
    norm_num
  exact zero_path_norm_division_unguarded stO stO stQ4 true (e1 0) (e1 (1/4)) hmem hz

/-- Claim C5, counterexample: when the two structures carry different
lattices (the code always converts with the lattice of whichever structure
is initial), swapping the roles changes `delta_Q` (1/2 against 1/4 here)
and the swapped displacement field is not the negation. -/
theorem swap_initial_final_cex :
    delta_Q stB2 stO true ≠ delta_Q stO stB2 true ∧
    delta_R stB2 stO ≠ (delta_R stO stB2).map (fun v => fun j => -(v j)) := by
  have hQ1 : delta_Q stO stB2 true = 1/4 := by
    rw [(delta_Q_single stO stB2 (1/4) 12 delta_R_stO_stB2 rfl).1]
    norm_num
  have hQ2 : delta_Q stB2 stO true = 1/2 := by
    rw [(delta_Q_single stB2 stO (-(1/2)) 12 delta_R_stB2_stO rfl).1]
    rw [abs_neg]
    norm_num
  constructor
  · rw [hQ1, hQ2]
    norm_num
  · intro h
    rw [delta_R_stB2_stO, delta_R_stO_stB2] at h
    simp only [List.map_cons, List.map_nil, List.cons.injEq, and_true] at h
    have h0 := congrFun h 0
    simp only [e1, if_pos rfl] at h0
    norm_num at h0

/-- Claim C5, amended: when the structures share the lattice and the
species list and no raw fractional difference component is congruent to
1/2 modulo 1, swapping initial and final negates every per-atom Cartesian
displacement and leaves `delta_Q` unchanged in both weighting modes. -/
theorem swap_initial_final_symmetry (struct_i struct_f : Struct)
    (hL : struct_f.lattice = struct_i.lattice)
    (hS : struct_f.species = struct_i.species)
    (hh : ∀ v ∈ arrSub struct_f.frac_coords struct_i.frac_coords,
      ∀ j, Int.fract (v j + 1/2) ≠ 0) :
    delta_R struct_f struct_i = (delta_R struct_i struct_f).map
      (fun v => fun j => -(v j)) ∧
    ∀ no_weight, delta_Q struct_f struct_i no_weight
      = delta_Q struct_i struct_f no_weight := by
  have hneg : delta_R struct_f struct_i = (delta_R struct_i struct_f).map
      (fun v => fun j => -(v j)) := by
    unfold delta_R
    rw [hL, arrSub_antisymm struct_i.frac_coords struct_f.frac_coords,
      List.map_map, List.map_map]
    apply List.map_congr_left
    intro v hv
    show toCart struct_i.lattice (wrapVec (fun j => -(v j)))
      = fun j => -(toCart struct_i.lattice (wrapVec v) j)
    have hw : wrapVec (fun j => -(v j)) = fun j => -(wrapVec v j) := by
      funext j
      exact wrapComp_neg (v j) (hh v hv j)
    rw [hw, toCart_neg]
  have hM : masses struct_f = masses struct_i := by
    unfold masses
    rw [hS]
  refine ⟨hneg, ?_⟩
  intro no_weight
  unfold delta_Q delta_Q2
  cases no_weight with
  | true => rw [if_pos rfl, if_pos rfl, hneg, sq_rows_neg_invariant]
  | false => rw [if_neg (by simp), if_neg (by simp), hneg, hM, delta_Q2_neg_invariant]

/-- Claim C5 amended witness at concrete structures sharing lattice and
species. -/
theorem swap_initial_final_symmetry_witness :
    delta_Q stQ4 stO true = delta_Q stO stQ4 true := by
  have hh : ∀ v ∈ arrSub stQ4.frac_coords stO.frac_coords,
      ∀ j, Int.fract (v j + 1/2) ≠ 0 := by
    intro v hv j
    have hv' : v ∈ [fun j => e1 (1/4) j - e1 0 j] := hv
    rw [List.mem_singleton] at hv'
    subst hv'
    by_cases hj : j = 0
    · rw [hj]
      show Int.fract (e1 (1/4) 0 - e1 0 0 + 1/2) ≠ 0
      rw [show (e1 (1/4) 0 - e1 0 0 + 1/2 : ℝ) = 3/4 by norm_num [e1]]
      exact fract_helper (3/4) (by norm_num) (by norm_num)
    · show Int.fract (e1 (1/4) j - e1 0 j + 1/2) ≠ 0
      rw [show (e1 (1/4) j - e1 0 j + 1/2 : ℝ) = 1/2 by norm_num [e1, hj]]
      exact fract_helper (1/2) (by norm_num) (by norm_num)
  exact (swap_initial_final_symmetry stO stQ4 rfl rfl hh).2 true

/-- Claim C6, counterexample: the medium sits at the exact fractional
midpoint of a pair whose raw difference is 0.8, yet the fractional
projection is -2 and not 0.5, because the minimum-image wrap sends 0.8 to
-0.2 while the midpoint difference 0.4 is left in place. -/
theorem midpoint_medium_cex :
    stM25.frac_coords = List.zipWith (fun a b => fun j => (a j + b j) / 2)
      stO.frac_coords stF45.frac_coords ∧
    res stO stF45 stM25 true = some (-2) ∧
    res stO stF45 stM25 true ≠ some (1/2) := by
  have hmid : stM25.frac_coords = List.zipWith (fun a b => fun j => (a j + b j) / 2)
      stO.frac_coords stF45.frac_coords := by
    show [e1 (2/5)] = [fun j => (e1 0 j + e1 (4/5) j) / 2]
    congr 1
    funext j
    by_cases hj : j = 0 <;> norm_num [e1, hj]
  have hd : dot3 (e1 (-(1/5))) (e1 (2/5)) = -(2/25) := by
    rw [dot3_e1]
    norm_num
  have hab : |(-(1/5) : ℝ)| = 1/5 := by
    rw [abs_neg]
    norm_num
  have hn : norm3 (e1 (-(1/5))) = 1/5 := by
    rw [norm3_e1, hab]
  have hdiv1 : divE (-(2/25)) (1/5) = some (-(2/5)) := by
    unfold divE
    rw [if_neg (by norm_num : (1/5 : ℝ) ≠ 0)]
    congr 1
    norm_num
  have hdiv2 : divE (-(2/5)) (1/5) = some (-2) := by
    unfold divE
    rw [if_neg (by norm_num : (1/5 : ℝ) ≠ 0)]
    congr 1
    norm_num
  have hres : res stO stF45 stM25 true = some (-2) := by
    unfold res
    rw [frac_eq_zipWith, delta_R_stO_stF45, delta_R_stO_stM25]
    rw [show List.zipWith (fun dR dM => (divE (dot3 dR dM) (norm3 dR)).bind
          (fun p => divE p (norm3 dR))) [e1 (-(1/5))] [e1 (2/5)]
        = [(divE (-(2/25)) (1/5)).bind (fun p => divE p (1/5))] from by
      simp only [List.zipWith_cons_cons, List.zipWith_nil_left]
      rw [hd, hn]]
    rw [show ((divE (-(2/25)) (1/5)).bind (fun p => divE p (1/5)))
        = some (-2) from by rw [hdiv1, Option.some_bind, hdiv2]]
    have hseq : seqOpt [some (-2 : ℝ)] = some [-2] := rfl
    rw [hseq, Option.some_bind, if_pos rfl]
    exact average_replicate 1 (-2) one_ne_zero
  refine ⟨hmid, hres, ?_⟩
  rw [hres]
  intro hcontra
  rw [Option.some.injEq] at hcontra
  norm_num at hcontra

/-- Claim C6, amended: the midpoint medium gives per-atom fractional
projection 1/2 for every atom, average 1/2 in both weighting modes, and a
projected delta Q of `1/2 * delta_Q`, provided additionally that every
raw fractional difference component already lies in [-1/2, 1/2) (so no
wrap moves either difference), every per-atom path displacement has
nonzero norm, there is one positive mass per atom, and there is at least
one atom. -/
theorem midpoint_medium_half (struct_i struct_f struct_m : Struct)
    (hmid : struct_m.frac_coords = List.zipWith (fun a b => fun j => (a j + b j) / 2)
      struct_i.frac_coords struct_f.frac_coords)
    (hrange : ∀ v ∈ arrSub struct_f.frac_coords struct_i.frac_coords,
      ∀ j, -(1/2) ≤ v j ∧ v j < 1/2)
    (hn : ∀ v ∈ delta_R struct_i struct_f, norm3 v ≠ 0)
    (hm : ∀ m ∈ masses struct_i, 0 < m)
    (hlm : (masses struct_i).length = (delta_R struct_i struct_f).length)
    (hne : delta_R struct_i struct_f ≠ []) :
    seqOpt (frac_delta_M_proj struct_i struct_f struct_m)
      = some (List.replicate (delta_R struct_i struct_f).length (1/2 : ℝ)) ∧
    (∀ no_weight, res struct_i struct_f struct_m no_weight = some (1/2)) ∧
    ∀ no_weight, (res struct_i struct_f struct_m no_weight).map
        (fun x => delta_Q struct_i struct_f no_weight * x)
      = some ((1/2) * delta_Q struct_i struct_f no_weight) := by
  have hhalf := delta_M_is_half struct_i struct_f struct_m hmid hrange
  have hfr : frac_delta_M_proj struct_i struct_f struct_m
      = List.replicate (delta_R struct_i struct_f).length (some (1/2 : ℝ)) := by
    rw [frac_eq_zipWith, hhalf]
    exact fracs_half _ hn
  have hseq : seqOpt (frac_delta_M_proj struct_i struct_f struct_m)
      = some (List.replicate (delta_R struct_i struct_f).length (1/2 : ℝ)) := by
    rw [hfr]
    exact seqOpt_replicate _ _
  have hn0 : (delta_R struct_i struct_f).length ≠ 0 := fun h0 =>
    hne (List.length_eq_zero.mp h0)
  have hmne : masses struct_i ≠ [] := by
    intro h0
    apply hne
    apply List.length_eq_zero.mp
    rw [← hlm, h0]
    rfl
  have h2 : ∀ no_weight, res struct_i struct_f struct_m no_weight = some (1/2) := by
    intro nw
    unfold res
    rw [hseq, Option.some_bind]
    cases nw with
    | true =>
      rw [if_pos rfl]
      exact average_replicate _ _ hn0
    | false =>
      rw [if_neg (by simp)]
      apply waverage_replicate
      · rw [List.length_map]
        exact hlm
      · exact ne_of_gt (sqrt_masses_sum_pos (masses struct_i) hm hmne)
  refine ⟨hseq, h2, ?_⟩
  intro nw
  rw [h2 nw]
  show some (delta_Q struct_i struct_f nw * (1/2))
    = some ((1/2) * delta_Q struct_i struct_f nw)
  congr 1
  ring

/-- Claim C6 amended witness: medium at 1/8, halfway between 0 and 1/4. -/
theorem midpoint_medium_half_witness :
    res stO stQ4 stQ8 false = some (1/2) ∧ res stO stQ4 stQ8 true = some (1/2) := by
  have hmid : stQ8.frac_coords = List.zipWith (fun a b => fun j => (a j + b j) / 2)
      stO.frac_coords stQ4.frac_coords := by
    show [e1 (1/8)] = [fun j => (e1 0 j + e1 (1/4) j) / 2]
    congr 1
    funext j
    by_cases hj : j = 0 <;> norm_num [e1, hj]
  have hrange : ∀ v ∈ arrSub stQ4.frac_coords stO.frac_coords,
      ∀ j, -(1/2) ≤ v j ∧ v j < 1/2 := by
    intro v hv j
    have hv' : v ∈ [fun j => e1 (1/4) j - e1 0 j] := hv
    rw [List.mem_singleton] at hv'
    subst hv'
    by_cases hj : j = 0
    · rw [hj]
      show -(1/2) ≤ e1 (1/4) 0 - e1 0 0 ∧ e1 (1/4) 0 - e1 0 0 < 1/2
      norm_num [e1]
    · show -(1/2) ≤ e1 (1/4) j - e1 0 j ∧ e1 (1/4) j - e1 0 j < 1/2
      norm_num [e1, hj]
  have hn : ∀ v ∈ delta_R stO stQ4, norm3 v ≠ 0 := by
    rw [delta_R_stO_stQ4]
    intro v hv
    rw [List.mem_singleton] at hv
    rw [hv, norm3_e1]
    norm_num
  have hm : ∀ m ∈ masses stO, 0 < m := by
    intro m hm0
    have hm' : m ∈ [(12 : ℝ)] := hm0
    rw [List.mem_singleton] at hm'
    rw [hm']
    norm_num
  have hlm : (masses stO).length = (delta_R stO stQ4).length := by
    rw [delta_R_stO_stQ4]
    rfl
  have hne : delta_R stO stQ4 ≠ [] := by
    rw [delta_R_stO_stQ4]
    simp
  exact ⟨(midpoint_medium_half stO stQ4 stQ8 hmid hrange hn hm hlm hne).2.1 false,
    (midpoint_medium_half stO stQ4 stQ8 hmid hrange hn hm hlm hne).2.1 true⟩
